import Mathlib

/-!
Verification of `trajclus/apps/lsh_clustering.py` (LSH-based clustering of
aircraft approach trajectories).

The pipeline under study: corridor detection (k-means / DBSCAN over pooled
entrance points), trajectory simplification, tokenization of entrance
segments into corridor labels, MinHash+LSH candidate-duplicate detection,
bucket-to-cluster reduction, and silhouette evaluation.

Source functions embedded here:
* `dbscan_clustering`, `kmeans_clustering`, `detect_entrance_ways`,
  `compute_silhouette_score`, and the body of `main` (tokenization loop,
  bucket formation, `convert_to_cluster_number`) — from
  `src/trajclus/apps/lsh_clustering.py`.
* `trajclus.lib` helpers (`LSHClusteringLib`, `simplify_coordinator`,
  `KM_PER_RADIAN`) are imported by the app but their sources are not in
  the repository snapshot; they are modelled from the specification where
  a claim needs them (each such definition is marked in its doc comment).
* `sklearn` entry points (`KMeans.fit`, `silhouette_score`) are modelled
  from their documented contracts.
-/

namespace TrajClus

/-! ## Bucket reduction (source: `main`, lines 195–210)

`unique_buckets = flight_df['buckets'].unique().tolist()` enumerates the
distinct bucket keys in first-occurrence order; `n_curve_per_bucket` maps a
bucket key to its population; `convert_to_cluster_number` yields `-1` for a
population `<= 5` and otherwise the index of the key in `unique_buckets`. -/

/-- Auxiliary for `uniqueFirst`: keep the first occurrence of each element,
skipping elements already `seen`. -/
def uniqueFirstAux (seen : List String) : List String → List String
  | [] => []
  | b :: rest =>
      if b ∈ seen then uniqueFirstAux seen rest
      else b :: uniqueFirstAux (b :: seen) rest

/-- First-occurrence-order deduplication, the behaviour of pandas
`Series.unique().tolist()` on `flight_df['buckets']`. -/
def uniqueFirst (l : List String) : List String :=
  uniqueFirstAux [] l

/-- Population of a bucket key among all records' bucket keys: the source's
`n_curve_per_bucket = flight_df.groupby('buckets').size().to_dict()`. -/
def bucketPopulation (buckets : List String) (b : String) : Nat :=
  buckets.count b

/-- `convert_to_cluster_number(bucket_label, unique_buckets, n_curve_per_bucket)`
from the source: `-1` when the bucket population is `<= 5`, else
`unique_buckets.index(bucket_label)`. -/
def convert_to_cluster_number (buckets : List String) (b : String) : Int :=
  if bucketPopulation buckets b ≤ 5 then -1
  else ((uniqueFirst buckets).indexOf b : Int)

/-- The source's `cluster_labels` list: one cluster id per record, in record
order. -/
def clusterLabels (buckets : List String) : List Int :=
  buckets.map (convert_to_cluster_number buckets)

/-- The distinct bucket keys that survive the population filter
(population strictly greater than 5), in first-occurrence order. -/
def survivingBuckets (buckets : List String) : List String :=
  (uniqueFirst buckets).filter (fun b => 5 < bucketPopulation buckets b)

lemma mem_uniqueFirstAux {b : String} :
    ∀ {seen l : List String}, b ∈ uniqueFirstAux seen l ↔ b ∈ l ∧ b ∉ seen := by
  intro seen l
  induction l generalizing seen with
  | nil => simp [uniqueFirstAux]
  | cons a rest ih =>
      by_cases ha : a ∈ seen
      · simp only [uniqueFirstAux, if_pos ha, ih, List.mem_cons]
        constructor
        · rintro ⟨hr, hs⟩; exact ⟨Or.inr hr, hs⟩
        · rintro ⟨hr | hr, hs⟩
          · exact absurd (hr ▸ ha) hs
          · exact ⟨hr, hs⟩
      · simp only [uniqueFirstAux, if_neg ha, List.mem_cons, ih]
        constructor
        · rintro (hb | ⟨hr, hs⟩)
          · exact ⟨Or.inl hb, hb ▸ ha⟩
          · refine ⟨Or.inr hr, fun hc => hs (Or.inr hc)⟩
        · rintro ⟨hb | hr, hs⟩
          · exact Or.inl hb
          · by_cases hba : b = a
            · exact Or.inl hba
            · exact Or.inr ⟨hr, fun hc => by
                rcases hc with h | h
                · exact hba h
                · exact hs h⟩

lemma mem_uniqueFirst {b : String} {l : List String} :
    b ∈ uniqueFirst l ↔ b ∈ l := by
  simp [uniqueFirst, mem_uniqueFirstAux]

lemma nodup_uniqueFirstAux :
    ∀ {seen l : List String}, (uniqueFirstAux seen l).Nodup := by
  intro seen l
  induction l generalizing seen with
  | nil => simp [uniqueFirstAux]
  | cons a rest ih =>
      by_cases ha : a ∈ seen
      · simpa [uniqueFirstAux, if_pos ha] using ih
      · simp only [uniqueFirstAux, if_neg ha, List.nodup_cons]
        refine ⟨fun hc => ?_, ih⟩
        exact (mem_uniqueFirstAux.mp hc).2 (List.mem_cons_self _ _)

lemma nodup_uniqueFirst {l : List String} : (uniqueFirst l).Nodup :=
  nodup_uniqueFirstAux

/-- **C3.** A bucket with population ≤ 5 (the hard-coded minimum) is assigned
cluster id `-1`; a bucket with population exactly 6 is never assigned `-1`
(its id is the non-negative index of its key in `unique_buckets`),
regardless of the bucket's position in the enumeration. -/
theorem small_bucket_noise_boundary (buckets : List String) (b : String)
    (hb : b ∈ buckets) :
    (bucketPopulation buckets b ≤ 5 → convert_to_cluster_number buckets b = -1) ∧
    (bucketPopulation buckets b = 6 → convert_to_cluster_number buckets b ≠ -1) := by
  constructor
  · intro h
    simp [convert_to_cluster_number, h]
  · intro h
    have h5 : ¬ bucketPopulation buckets b ≤ 5 := by omega
    simp only [convert_to_cluster_number, if_neg h5]
    intro hc
    omega

/-- Witness for `small_bucket_noise_boundary` at a concrete pool:
`"A"` has population 2 → id `-1`; `"B"` has population 6 → id ≠ `-1`. -/
theorem small_bucket_noise_boundary_witness :
    convert_to_cluster_number ["A", "A", "B", "B", "B", "B", "B", "B"] "A" = -1 ∧
    convert_to_cluster_number ["A", "A", "B", "B", "B", "B", "B", "B"] "B" ≠ -1 :=
  ⟨(small_bucket_noise_boundary ["A", "A", "B", "B", "B", "B", "B", "B"] "A"
      (by decide)).1 (by decide),
   (small_bucket_noise_boundary ["A", "A", "B", "B", "B", "B", "B", "B"] "B"
      (by decide)).2 (by decide)⟩

/-- Record pool refuting C2 as stated: bucket `"A"` (population 2) does not
survive, bucket `"B"` (population 6) does. -/
def c2Pool : List String := ["A", "A", "B", "B", "B", "B", "B", "B"]

/-- **C2, counterexample.** The surviving buckets do *not* receive cluster ids
`{0, …, K−1}`: here the single surviving bucket `"B"` receives id 1 (its index
in the enumeration of *all* distinct buckets), not 0. -/
theorem surviving_bijection_counterexample :
    survivingBuckets c2Pool = ["B"] ∧
    convert_to_cluster_number c2Pool "B" = 1 ∧
    ¬ (∀ i (h : i < (survivingBuckets c2Pool).length),
        convert_to_cluster_number c2Pool ((survivingBuckets c2Pool).get ⟨i, h⟩)
          = (i : Int)) := by
  refine ⟨by decide, by decide, fun hall => ?_⟩
  have h0 := hall 0 (by decide)
  revert h0
  decide

/-- **C2, amended.** Every record receives exactly one cluster id; each
surviving bucket's cluster id is the index of its key in the first-occurrence
enumeration of *all* distinct bucket keys (hence ids of distinct surviving
buckets are distinct and lie in `{0, …, M−1}` with `M` the number of distinct
buckets), so the ids need not be onto `{0, …, K−1}`; in particular, whenever
every distinct bucket survives, the `i`-th surviving bucket does receive
cluster id `i`. -/
theorem surviving_bucket_ids_amended (buckets : List String) :
    (clusterLabels buckets).length = buckets.length ∧
    (∀ b ∈ survivingBuckets buckets,
        convert_to_cluster_number buckets b
          = ((uniqueFirst buckets).indexOf b : Int) ∧
        convert_to_cluster_number buckets b < ((uniqueFirst buckets).length : Int)) ∧
    (∀ b₁ ∈ survivingBuckets buckets, ∀ b₂ ∈ survivingBuckets buckets,
        convert_to_cluster_number buckets b₁ = convert_to_cluster_number buckets b₂ →
          b₁ = b₂) ∧
    ((∀ b ∈ uniqueFirst buckets, 5 < bucketPopulation buckets b) →
      ∀ i (h : i < (survivingBuckets buckets).length),
        convert_to_cluster_number buckets ((survivingBuckets buckets).get ⟨i, h⟩)
          = (i : Int)) := by
  have hmem : ∀ b ∈ survivingBuckets buckets, b ∈ uniqueFirst buckets := by
    intro b hb
    exact (List.mem_filter.mp hb).1
  have hpop : ∀ b ∈ survivingBuckets buckets, 5 < bucketPopulation buckets b := by
    intro b hb
    simpa using (List.mem_filter.mp hb).2
  have hconv : ∀ b ∈ survivingBuckets buckets,
      convert_to_cluster_number buckets b = ((uniqueFirst buckets).indexOf b : Int) := by
    intro b hb
    have := hpop b hb
    simp only [convert_to_cluster_number, if_neg (by omega : ¬ bucketPopulation buckets b ≤ 5)]
  refine ⟨by simp [clusterLabels], ?_, ?_, ?_⟩
  · intro b hb
    refine ⟨hconv b hb, ?_⟩
    rw [hconv b hb]
    exact_mod_cast List.indexOf_lt_length.mpr (hmem b hb)
  · intro b₁ hb₁ b₂ hb₂ heq
    rw [hconv b₁ hb₁, hconv b₂ hb₂] at heq
    exact (List.indexOf_inj (hmem b₁ hb₁) (hmem b₂ hb₂)).mp (by exact_mod_cast heq)
  · intro hall i h
    have hfilter : survivingBuckets buckets = uniqueFirst buckets := by
      unfold survivingBuckets
      exact List.filter_eq_self.mpr (fun b hb => by
        simpa using hall b hb)
    revert h
    rw [hfilter]
    intro h
    have hget : (uniqueFirst buckets).get ⟨i, h⟩ ∈ survivingBuckets buckets := by
      rw [hfilter]
      exact List.get_mem _ _ _
    rw [hconv _ hget]
    have := List.indexOf_getElem nodup_uniqueFirst i h
    simp only [List.get_eq_getElem]
    exact_mod_cast congrArg (Nat.cast : Nat → Int) this

/-- Witness for `surviving_bucket_ids_amended`: in `c2Pool` the surviving
bucket `"B"` receives exactly the index of `"B"` among all distinct buckets. -/
theorem surviving_bucket_ids_amended_witness :
    convert_to_cluster_number c2Pool "B" = ((uniqueFirst c2Pool).indexOf "B" : Int) :=
  ((surviving_bucket_ids_amended c2Pool).2.1 "B" (by decide)).1

/-! ## Geometry and corridor detection
(source: `dbscan_clustering`, `kmeans_clustering`, `detect_entrance_ways`) -/

/-- A (latitude, longitude) pair, in exact rational coordinates. -/
def Point : Type := ℚ × ℚ

instance : DecidableEq Point := instDecidableEqProd

/-- Squared Euclidean distance between two points. -/
def distSq (p q : Point) : ℚ :=
  (p.1 - q.1) ^ 2 + (p.2 - q.2) ^ 2

/-- Modelled from the spec: `KM_PER_RADIAN` from `trajclus.lib.geometric_utils`
(not in the repository snapshot) — "a maximum great-circle distance divided by
Earth's radius": the Earth's mean radius in kilometres. -/
def kmPerRadian : ℚ := 6371.0088

/-- The arguments actually handed to `sklearn.cluster.DBSCAN(...)` by
`dbscan_clustering`: the effective `eps` radius and `min_samples`. -/
structure DBSCANCall where
  eps : ℚ
  min_samples : ℕ
  deriving DecidableEq

/-- `dbscan_clustering(coords, min_sample, max_distance, epsilon)` from the
source, up to the DBSCAN invocation it performs: Python's `if not epsilon:`
treats `None` and `0.0` as unset and replaces them with
`max_distance / KM_PER_RADIAN` before calling
`DBSCAN(eps=epsilon, min_samples=min_sample, ...)`. -/
def dbscan_clustering (min_sample : ℕ) (max_distance : ℚ)
    (epsilon : Option ℚ) : DBSCANCall :=
  let eps :=
    match epsilon with
    | none => max_distance / kmPerRadian
    | some e => if e = 0 then max_distance / kmPerRadian else e
  { eps := eps, min_samples := min_sample }

/-- Index (first occurrence) of the smallest value of a list, 0 for `[]`. -/
def argminIdx (l : List ℚ) : ℕ :=
  match l with
  | [] => 0
  | x :: xs => l.indexOf ((x :: xs).foldl min x)

/-- Nearest-center classification: the index of the center minimising the
squared Euclidean distance to `p` (sklearn `KMeans.predict` on one sample). -/
def nearestIdx (centers : List Point) (p : Point) : ℕ :=
  argminIdx (centers.map (fun c => distSq c p))

/-- Coordinate-wise mean of a list of points. -/
def meanPoint (pts : List Point) : Point :=
  ((pts.map Prod.fst).sum / pts.length, (pts.map Prod.snd).sum / pts.length)

/-- One Lloyd update: reassign every sample to its nearest center and move
each center to the mean of its assigned samples (a center with no assigned
sample keeps its position). -/
def kmeansStep (coords : List Point) (centers : List Point) : List Point :=
  (List.range centers.length).map (fun i =>
    let assigned := coords.filter (fun p => nearestIdx centers p = i)
    if assigned.isEmpty then centers.getD i ((0 : ℚ), (0 : ℚ))
    else meanPoint assigned)

/-- Lloyd iterations with a fixed iteration budget. -/
def lloyd (coords : List Point) : ℕ → List Point → List Point
  | 0, cs => cs
  | n + 1, cs => lloyd coords n (kmeansStep coords cs)

/-- The fitted estimator state exposed by sklearn `KMeans.fit`. -/
structure KMeansModel where
  cluster_centers : List Point

/-- Model of `sklearn.cluster.KMeans(n_clusters=k, random_state=0).fit(X)`
per its documented contract: raises `ValueError` when the number of samples
is smaller than `n_clusters` (or `n_clusters = 0`); otherwise fits and
exposes `cluster_centers_`, an array of exactly `n_clusters` rows. The
seeded (`random_state=0`, hence deterministic) initialisation is modelled as
the choice of the first `k` samples, followed by `max_iter = 300` Lloyd
iterations. -/
def KMeans_fit (coords : List Point) (k : ℕ) : Except String KMeansModel :=
  if k = 0 ∨ coords.length < k then
    Except.error "ValueError: n_samples should be >= n_clusters"
  else
    Except.ok { cluster_centers := lloyd coords 300 (coords.take k) }

/-- `kmeans_clustering(coords, k_cluster)` from the source: fit KMeans with
`random_state=0` and return `(cluster_centers_, fitted model)`; a `ValueError`
raised by `fit` propagates. -/
def kmeans_clustering (coords : List Point) (k_cluster : ℕ) :
    Except String (List Point × KMeansModel) :=
  match KMeans_fit coords k_cluster with
  | Except.error e => Except.error e
  | Except.ok m => Except.ok (m.cluster_centers, m)

/-- The possible outcomes of `detect_entrance_ways`. -/
inductive DetectResult where
  /-- The `(centers, fitted KMeans)` tuple of the `'k-means'` branch. -/
  | kmeansResult (centers : List Point) (model : KMeansModel)
  /-- The `'dbscan'` branch (represented by the DBSCAN call it makes). -/
  | dbscanResult (call : DBSCANCall)
  /-- The literal `return [], False` of the unrecognized-algorithm branch. -/
  | emptyFalse
  /-- A Python exception propagating out. -/
  | pyError (msg : String)

/-- `detect_entrance_ways(point_coords, algorithm)` from the source: an
algorithm name other than `'k-means'` or `'dbscan'` returns `([], False)`
(no exception is raised); `'k-means'` runs `kmeans_clustering` with the
hard-coded `estimated_n_entrance = 9`; `'dbscan'` runs `dbscan_clustering`
with `min_sample=1`, `max_distance=30.0` and no epsilon. -/
def detect_entrance_ways (point_coords : List Point) (algorithm : String) :
    DetectResult :=
  if algorithm ≠ "k-means" ∧ algorithm ≠ "dbscan" then DetectResult.emptyFalse
  else if algorithm = "k-means" then
    match kmeans_clustering point_coords 9 with
    | Except.ok (centers, m) => DetectResult.kmeansResult centers m
    | Except.error e => DetectResult.pyError e
  else
    DetectResult.dbscanResult (dbscan_clustering 1 30 none)

/-- **C1 (divergence).** For every point pool, an unrecognized algorithm
selector makes `detect_entrance_ways` silently return the empty corridor set
`([], False)`; no `InvalidAlgorithmError` (or any exception) is raised, in
contradiction with §4.1/§7 of the specification (§9 flags exactly this
silent fallback as a defect of the source). -/
theorem invalid_algorithm_returns_empty (pts : List Point) :
    detect_entrance_ways pts "spectral" = DetectResult.emptyFalse ∧
    ∀ alg : String, alg ≠ "k-means" → alg ≠ "dbscan" →
      detect_entrance_ways pts alg = DetectResult.emptyFalse := by
  refine ⟨rfl, fun alg h₁ h₂ => ?_⟩
  simp [detect_entrance_ways, h₁, h₂]

/-- Witness for `invalid_algorithm_returns_empty` at a concrete pool and
selector. -/
theorem invalid_algorithm_returns_empty_witness :
    detect_entrance_ways [((0 : ℚ), (0 : ℚ))] "affinity" = DetectResult.emptyFalse :=
  (invalid_algorithm_returns_empty [((0 : ℚ), (0 : ℚ))]).2 "affinity"
    (by decide) (by decide)

lemma kmeansStep_length (coords centers : List Point) :
    (kmeansStep coords centers).length = centers.length := by
  simp [kmeansStep]

lemma lloyd_length (coords : List Point) (n : ℕ) (centers : List Point) :
    (lloyd coords n centers).length = centers.length := by
  induction n generalizing centers with
  | zero => rfl
  | succ n ih => rw [lloyd, ih, kmeansStep_length]

/-- **C8, amended.** Centroid-k corridor detection returns exactly `k`
corridor centers whenever the pool holds at least `k` points (`k ≥ 1`); a
non-empty pool with fewer than `k` points makes `KMeans.fit` raise
`ValueError` instead of returning `k` corridors. -/
theorem kmeans_returns_k_centers (coords : List Point) (k : ℕ)
    (hk : 0 < k) (hn : k ≤ coords.length) :
    ∃ m : KMeansModel, kmeans_clustering coords k = Except.ok (m.cluster_centers, m) ∧
      m.cluster_centers.length = k := by
  have hcond : ¬ (k = 0 ∨ coords.length < k) := by omega
  refine ⟨{ cluster_centers := lloyd coords 300 (coords.take k) }, ?_, ?_⟩
  · simp [kmeans_clustering, KMeans_fit, hcond]
  · simp [lloyd_length, List.length_take]
    omega

/-- Witness for `kmeans_returns_k_centers` at a concrete two-point pool with
`k = 2`. -/
theorem kmeans_returns_k_centers_witness :
    ∃ m : KMeansModel,
      kmeans_clustering [((0 : ℚ), (0 : ℚ)), ((1 : ℚ), (0 : ℚ))] 2
        = Except.ok (m.cluster_centers, m) ∧
      m.cluster_centers.length = 2 :=
  kmeans_returns_k_centers [((0 : ℚ), (0 : ℚ)), ((1 : ℚ), (0 : ℚ))] 2
    (by decide) (by decide)

/-- **C8, counterexample.** On a non-empty pool of a single point, the
`'k-means'` branch of `detect_entrance_ways` (which hard-codes `k = 9`) does
*not* return 9 corridors: `KMeans.fit` rejects `n_samples=1 < n_clusters=9`
with a `ValueError`. -/
theorem kmeans_returns_k_centers_counterexample :
    ¬ (∃ m : KMeansModel,
        kmeans_clustering [((0 : ℚ), (0 : ℚ))] 9 = Except.ok (m.cluster_centers, m) ∧
        m.cluster_centers.length = 9) := by
  rintro ⟨m, hm, -⟩
  have : kmeans_clustering [((0 : ℚ), (0 : ℚ))] 9
      = Except.error "ValueError: n_samples should be >= n_clusters" := by
    rfl
  rw [this] at hm
  exact Except.noConfusion hm

/-- **C10.** `dbscan_clustering` treats a falsy epsilon as unset: with
`epsilon=None` or `epsilon=0` it runs DBSCAN with radius
`max_distance / KM_PER_RADIAN` rather than the passed value; any non-zero
epsilon is passed through; consequently the radius handed to DBSCAN is zero
only when `max_distance` itself is zero — a caller can never obtain a zero
radius by requesting one. -/
theorem dbscan_falsy_epsilon_fallback (ms : ℕ) (md : ℚ) :
    (dbscan_clustering ms md none).eps = md / kmPerRadian ∧
    (dbscan_clustering ms md (some 0)).eps = md / kmPerRadian ∧
    (∀ e : ℚ, e ≠ 0 → (dbscan_clustering ms md (some e)).eps = e) ∧
    (∀ eo : Option ℚ, (dbscan_clustering ms md eo).eps = 0 → md = 0) := by
  refine ⟨rfl, by simp [dbscan_clustering], fun e he => by simp [dbscan_clustering, he], ?_⟩
  have hkm : kmPerRadian ≠ 0 := by
    rw [kmPerRadian]
    norm_num
  intro eo h0
  match eo with
  | none =>
      simp only [dbscan_clustering] at h0
      rcases div_eq_zero_iff.mp h0 with h | h
      · exact h
      · exact absurd h hkm
  | some e =>
      by_cases he : e = 0
      · simp only [dbscan_clustering, he, if_pos rfl] at h0
        rcases div_eq_zero_iff.mp h0 with h | h
        · exact h
        · exact absurd h hkm
      · simp only [dbscan_clustering, if_neg he] at h0
        exact absurd h0 he

/-- Witness for `dbscan_falsy_epsilon_fallback` at concrete arguments. -/
theorem dbscan_falsy_epsilon_fallback_witness :
    (dbscan_clustering 1 30 (some 5)).eps = 5 :=
  (dbscan_falsy_epsilon_fallback 1 30).2.2.1 5 (by norm_num)

/-! ## Trajectory simplification

Modelled from the spec: `simplify_coordinator` from
`trajclus.lib.geometric_utils` is imported by the app but its source is not
in the repository snapshot. §4.2 of the spec describes it as "a
Douglas-Peucker-style reduction: keep endpoints, recursively keep the point
of maximum perpendicular deviation if it exceeds epsilon". The model below
follows those words in exact rational arithmetic: the comparison
`deviation > ε` is carried out on squared quantities
(`crossDet² > ε² · |b−a|²`, or `|p−a|² > ε²` for a degenerate segment), which
is equivalent and division-free; ties in the maximum are broken towards the
earliest point. -/

/-- Twice the signed area of the triangle `(a, b, p)`; its square divided by
`distSq a b` is the squared perpendicular distance of `p` from line `(a,b)`. -/
def crossDet (a b p : Point) : ℚ :=
  (b.1 - a.1) * (p.2 - a.2) - (b.2 - a.2) * (p.1 - a.1)

/-- Deviation measure of `p` from segment `(a, b)`: the squared perpendicular
distance scaled by the constant `distSq a b` (or the plain squared distance
to `a` when the segment is degenerate). Within one segment this is a
positive constant multiple of the true squared deviation, so maxima and
threshold comparisons agree with the unscaled ones. -/
def devNum (a b p : Point) : ℚ :=
  if distSq a b = 0 then distSq a p else crossDet a b p ^ 2

/-- The threshold that `devNum` is compared against, scaled the same way:
`ε² · distSq a b` (or `ε²` for a degenerate segment). -/
def devThreshold (a b : Point) (e2 : ℚ) : ℚ :=
  if distSq a b = 0 then e2 else e2 * distSq a b

/-- Index of the first occurrence of `v`, `l.length` if absent. -/
def firstIdxOf (v : ℚ) : List ℚ → ℕ
  | [] => 0
  | x :: xs => if x = v then 0 else firstIdxOf v xs + 1

/-- The Douglas-Peucker recursion between the fixed endpoints `a` and `b`
over the interior points `m`, with a structural fuel (`fuel ≥ m.length`
always holds at call sites, making the two fallback `[a, b]` branches
unreachable): if no interior deviation exceeds `ε²`, keep only the
endpoints; otherwise split at the first interior point of maximum deviation
and recurse on the two halves. -/
def dpAux (e2 : ℚ) : ℕ → Point → Point → List Point → List Point
  | 0, a, b, _ => [a, b]
  | fuel + 1, a, b, m =>
      let ds := m.map (devNum a b)
      if ∀ d ∈ ds, d ≤ devThreshold a b e2 then [a, b]
      else
        let j := firstIdxOf (ds.foldl max 0) ds
        if hj : j < m.length then
          dpAux e2 fuel a (m.get ⟨j, hj⟩) (m.take j)
            ++ (dpAux e2 fuel (m.get ⟨j, hj⟩) b (m.drop (j + 1))).tail
        else [a, b]

/-- Modelled from the spec: `simplify_coordinator(coord_curve, epsilon)` —
Douglas-Peucker simplification of an ordered point sequence with tolerance
`epsilon`. Sequences of fewer than two points are returned unchanged. -/
def simplify_coordinator (e : ℚ) : List Point → List Point
  | [] => []
  | [a] => [a]
  | a :: r :: rest =>
      dpAux (e * e) (r :: rest).length a ((r :: rest).getLast (by simp))
        ((r :: rest).dropLast)

/-! ## Tokenization (source: `main`, lines 133–141 and 157–173)

Per flight id, the entrance rows are sorted by `DRemains` descending and
their `(Latitude, Longitude)` values form the raw entrance trajectory
(line 137). The `'k-means'` branch then predicts one corridor id per point
of that *raw* trajectory (line 164) — the simplified curves computed on
line 139 are pooled for corridor *fitting* only — and a trajectory of fewer
than 2 points gets the sentinel group list `[-1]` (line 166). Finally each
group id `c` becomes the label `"G{c}"` (line 173). -/

/-- One row of the `entrance_to_airport` frame for one flight. -/
structure EntranceRow where
  dremains : ℚ
  lat : ℚ
  lon : ℚ

/-- `tmp_df.sort_values(by='DRemains', ascending=False)` followed by
`tmp_df[['Latitude', 'Longitude']].values`. -/
def sortedEntrancePoints (rows : List EntranceRow) : List Point :=
  (rows.mergeSort (fun r s => decide (s.dremains ≤ r.dremains))).map
    (fun r => ((r.lat, r.lon) : Point))

/-- The `entrance_groups` entry for one trajectory (`'k-means'` branch):
`classifier.predict(X=traj)` when the trajectory has more than one point,
else the sentinel `[-1]`. -/
def entranceGroupsFor (classify : Point → ℤ) (traj : List Point) : List ℤ :=
  if 1 < traj.length then traj.map classify else [-1]

/-- `["G{}".format(c) for c in clusters]` (line 173). -/
def groupLabels (clusters : List ℤ) : List String :=
  clusters.map (fun c => "G" ++ toString c)

/-- The token sequence the pipeline actually computes for one flight. -/
def tokensFor (classify : Point → ℤ) (rows : List EntranceRow) : List String :=
  groupLabels (entranceGroupsFor classify (sortedEntrancePoints rows))

/-- The token sequence claim C7 describes: one label per point of the
*simplified* entrance segment (simplification tolerance 0.0001 as in
`main`), each label prefixing `G` to the corridor id classified for that
simplified point. -/
def tokensClaimedC7 (classify : Point → ℤ) (e : ℚ) (rows : List EntranceRow) :
    List String :=
  (simplify_coordinator e (sortedEntrancePoints rows)).map
    (fun p => "G" ++ toString (classify p))

/-- Entrance rows refuting C7: three collinear points (already in decreasing
`DRemains` order) whose simplified segment keeps only the two endpoints. -/
def c7Rows : List EntranceRow := [⟨3, 0, 0⟩, ⟨2, 0, 1⟩, ⟨1, 0, 2⟩]

/-- **C7, counterexample.** With the everywhere-0 classifier, the pipeline
emits one label per *raw* entrance point — `["G0", "G0", "G0"]` for the
three collinear points of `c7Rows`, although their simplified segment has
only two points — and a single-point trajectory gets the sentinel `"G-1"`,
not the label of its (simplified = raw) point. -/
theorem tokens_use_raw_points_counterexample :
    tokensFor (fun _ => 0) c7Rows ≠ tokensClaimedC7 (fun _ => 0) (1 / 10000) c7Rows ∧
    tokensFor (fun _ => 0) [⟨3, 0, 0⟩]
      ≠ tokensClaimedC7 (fun _ => 0) (1 / 10000) [⟨3, 0, 0⟩] := by
  have hsort : sortedEntrancePoints c7Rows
      = [((0 : ℚ), (0 : ℚ)), ((0 : ℚ), (1 : ℚ)), ((0 : ℚ), (2 : ℚ))] := by
    unfold sortedEntrancePoints c7Rows
    rw [List.mergeSort_of_sorted]
    · simp
    · simp only [List.pairwise_cons, List.mem_cons]
      norm_num
  have hsimp : simplify_coordinator (1 / 10000)
      [((0 : ℚ), (0 : ℚ)), ((0 : ℚ), (1 : ℚ)), ((0 : ℚ), (2 : ℚ))]
      = [((0 : ℚ), (0 : ℚ)), ((0 : ℚ), (2 : ℚ))] := by
    norm_num [simplify_coordinator, dpAux, devNum, devThreshold, distSq, crossDet]
  constructor
  · simp only [tokensFor, tokensClaimedC7, hsort, hsimp, groupLabels,
      entranceGroupsFor]
    norm_num
  · have hone : sortedEntrancePoints [⟨3, 0, 0⟩] = [((0 : ℚ), (0 : ℚ))] := by
      simp [sortedEntrancePoints]
    simp only [tokensFor, tokensClaimedC7, hone, groupLabels, entranceGroupsFor,
      simplify_coordinator]
    norm_num
    decide

/-- **C7, amended.** The token sequence contains exactly one label per point
of the trajectory's *raw* entrance segment in decreasing-`DRemains` order
(the `i`-th token is `G` prefixed to the corridor id classified for the
`i`-th raw point), provided the segment has more than one point;
a segment with at most one point yields the single sentinel token `"G-1"`.
Simplification is applied only to the pooled points used to fit the corridor
detector, not to the tokenized segment. -/
theorem tokens_per_raw_point_amended (classify : Point → ℤ)
    (rows : List EntranceRow) :
    (1 < (sortedEntrancePoints rows).length →
      ∀ i : ℕ, (tokensFor classify rows).get? i
        = ((sortedEntrancePoints rows).get? i).map
            (fun p => "G" ++ toString (classify p))) ∧
    ((sortedEntrancePoints rows).length ≤ 1 →
      tokensFor classify rows = ["G" ++ toString (-1 : ℤ)]) := by
  constructor
  · intro h i
    simp only [tokensFor, groupLabels, entranceGroupsFor, if_pos h,
      List.get?_map, Option.map_map]
    rfl
  · intro h
    have h' : ¬ 1 < (sortedEntrancePoints rows).length := by omega
    simp [tokensFor, groupLabels, entranceGroupsFor, if_neg h']

/-- Witness for `tokens_per_raw_point_amended` on `c7Rows` at index 0. -/
theorem tokens_per_raw_point_amended_witness :
    (tokensFor (fun _ => 0) c7Rows).get? 0
      = ((sortedEntrancePoints c7Rows).get? 0).map
          (fun p => "G" ++ toString ((fun _ : Point => (0 : ℤ)) p)) :=
  (tokens_per_raw_point_amended (fun _ => 0) c7Rows).1
    (by simp [sortedEntrancePoints, c7Rows, List.length_mergeSort]) 0

/-! ## Idempotence of the simplifier (C9): auxiliary order/list lemmas -/

lemma foldl_max_init_le (l : List ℚ) (init : ℚ) : init ≤ l.foldl max init := by
  induction l generalizing init with
  | nil => simp
  | cons a t ih => exact le_trans (le_max_left init a) (ih (max init a))

lemma mem_le_foldl_max {l : List ℚ} {x : ℚ} (hx : x ∈ l) (init : ℚ) :
    x ≤ l.foldl max init := by
  induction l generalizing init with
  | nil => cases hx
  | cons a t ih =>
      rcases List.mem_cons.mp hx with rfl | hx'
      · exact le_trans (le_max_right init x) (foldl_max_init_le t (max init x))
      · exact ih hx' (max init a)

lemma foldl_max_mem {l : List ℚ} (init : ℚ) :
    l.foldl max init = init ∨ l.foldl max init ∈ l := by
  induction l generalizing init with
  | nil => exact Or.inl rfl
  | cons a t ih =>
      rcases ih (max init a) with h | h
      · rcases max_choice init a with hm | hm
        · exact Or.inl (by rw [List.foldl_cons, h, hm])
        · exact Or.inr (by rw [List.foldl_cons, h, hm]; exact List.mem_cons_self _ _)
      · exact Or.inr (List.mem_cons_of_mem _ h)

lemma foldl_max_le {l : List ℚ} {c init : ℚ} (h0 : init ≤ c)
    (h : ∀ x ∈ l, x ≤ c) : l.foldl max init ≤ c := by
  induction l generalizing init with
  | nil => exact h0
  | cons a t ih =>
      exact ih (max_le h0 (h a (List.mem_cons_self _ _)))
        (fun x hx => h x (List.mem_cons_of_mem _ hx))

lemma firstIdxOf_lt_length {v : ℚ} {l : List ℚ} (h : v ∈ l) :
    firstIdxOf v l < l.length := by
  induction l with
  | nil => cases h
  | cons x xs ih =>
      by_cases hx : x = v
      · simp [firstIdxOf, hx]
      · rcases List.mem_cons.mp h with h' | h'
        · exact absurd h'.symm hx
        · simpa [firstIdxOf, hx] using ih h'

lemma get_firstIdxOf {v : ℚ} {l : List ℚ} (h : v ∈ l)
    (hlt : firstIdxOf v l < l.length) : l.get ⟨firstIdxOf v l, hlt⟩ = v := by
  induction l with
  | nil => cases h
  | cons x xs ih =>
      by_cases hx : x = v
      · simp [firstIdxOf, hx]
      · rcases List.mem_cons.mp h with h' | h'
        · exact absurd h'.symm hx
        · have hlt' : firstIdxOf v xs < xs.length := firstIdxOf_lt_length h'
          simpa [firstIdxOf, hx] using ih h' hlt'

lemma not_mem_take_firstIdxOf (v : ℚ) (l : List ℚ) :
    v ∉ l.take (firstIdxOf v l) := by
  induction l with
  | nil => simp
  | cons x xs ih =>
      by_cases hx : x = v
      · simp [firstIdxOf, hx]
      · simp only [firstIdxOf, if_neg hx, List.take_succ_cons, List.mem_cons]
        rintro (h | h)
        · exact hx h.symm
        · exact ih h

lemma firstIdxOf_append_cons {v : ℚ} {xs ys : List ℚ} (h : v ∉ xs) :
    firstIdxOf v (xs ++ v :: ys) = xs.length := by
  induction xs with
  | nil => simp [firstIdxOf]
  | cons x t ih =>
      have hx : ¬ x = v := fun hx => h (by rw [hx]; exact List.mem_cons_self _ _)
      simp only [List.cons_append, firstIdxOf, if_neg hx, List.length_cons]
      exact congrArg (· + 1) (ih (fun hv => h (List.mem_cons_of_mem _ hv)))

lemma get_append_cons {α : Type} (xs : List α) (v : α) (ys : List α)
    (h : xs.length < (xs ++ v :: ys).length) :
    (xs ++ v :: ys).get ⟨xs.length, h⟩ = v := by
  induction xs with
  | nil => rfl
  | cons x t ih => simpa using ih (by simpa using Nat.lt_of_succ_lt_succ h)

lemma drop_length_append_cons {α : Type} (xs : List α) (v : α) (ys : List α) :
    (xs ++ v :: ys).drop (xs.length + 1) = ys := by
  induction xs with
  | nil => rfl
  | cons x t ih => simpa using ih

lemma interior_shape {α : Type} (a b : α) (I : List α) :
    (a :: (I ++ [b])).tail.dropLast = I := by
  simp

/-! ### Unfolding and shape lemmas for `dpAux` -/

lemma distSq_nonneg (p q : Point) : 0 ≤ distSq p q := by
  unfold distSq
  positivity

lemma devNum_nonneg (a b p : Point) : 0 ≤ devNum a b p := by
  unfold devNum
  split
  · exact distSq_nonneg a p
  · positivity

lemma devThreshold_nonneg (a b : Point) {e2 : ℚ} (he2 : 0 ≤ e2) :
    0 ≤ devThreshold a b e2 := by
  unfold devThreshold
  split
  · exact he2
  · exact mul_nonneg he2 (distSq_nonneg a b)

lemma dpAux_nil (e2 : ℚ) (f : ℕ) (a b : Point) : dpAux e2 f a b [] = [a, b] := by
  cases f with
  | zero => rfl
  | succ f => simp [dpAux]

lemma dpAux_succ_of_all (e2 : ℚ) (f : ℕ) (a b : Point) (m : List Point)
    (h : ∀ d ∈ m.map (devNum a b), d ≤ devThreshold a b e2) :
    dpAux e2 (f + 1) a b m = [a, b] := by
  simp only [dpAux]
  rw [if_pos h]

lemma dpAux_succ_split (e2 : ℚ) (f : ℕ) (a b : Point) (m : List Point) (j : ℕ)
    (hcond : ¬ ∀ d ∈ m.map (devNum a b), d ≤ devThreshold a b e2)
    (hjdef : j = firstIdxOf ((m.map (devNum a b)).foldl max 0) (m.map (devNum a b)))
    (hj : j < m.length) :
    dpAux e2 (f + 1) a b m
      = dpAux e2 f a (m.get ⟨j, hj⟩) (m.take j)
        ++ (dpAux e2 f (m.get ⟨j, hj⟩) b (m.drop (j + 1))).tail := by
  subst hjdef
  simp only [dpAux]
  rw [if_neg hcond, dif_pos hj]

lemma dpAux_succ_stuck (e2 : ℚ) (f : ℕ) (a b : Point) (m : List Point)
    (hcond : ¬ ∀ d ∈ m.map (devNum a b), d ≤ devThreshold a b e2)
    (hj : ¬ firstIdxOf ((m.map (devNum a b)).foldl max 0) (m.map (devNum a b))
        < m.length) :
    dpAux e2 (f + 1) a b m = [a, b] := by
  simp only [dpAux]
  rw [if_neg hcond, dif_neg hj]

/-- Every `dpAux` result starts at `a`, ends at `b` and has all of its
interior points drawn from `m`. -/
lemma dpAux_shape (e2 : ℚ) :
    ∀ (fuel : ℕ) (a b : Point) (m : List Point),
      ∃ I : List Point, dpAux e2 fuel a b m = a :: (I ++ [b]) ∧ ∀ q ∈ I, q ∈ m := by
  intro fuel
  induction fuel with
  | zero => exact fun a b m => ⟨[], rfl, by simp⟩
  | succ f ih =>
      intro a b m
      by_cases hcond : ∀ d ∈ m.map (devNum a b), d ≤ devThreshold a b e2
      · exact ⟨[], by rw [dpAux_succ_of_all e2 f a b m hcond]; rfl, by simp⟩
      · by_cases hj : firstIdxOf ((m.map (devNum a b)).foldl max 0)
            (m.map (devNum a b)) < m.length
        · obtain ⟨I1, h1, hm1⟩ := ih a (m.get ⟨_, hj⟩) (m.take _)
          obtain ⟨I2, h2, hm2⟩ := ih (m.get ⟨_, hj⟩) b (m.drop _)
          refine ⟨I1 ++ m.get ⟨_, hj⟩ :: I2, ?_, ?_⟩
          · rw [dpAux_succ_split e2 f a b m _ hcond rfl hj, h1, h2]
            simp
          · intro q hq
            rcases List.mem_append.mp hq with hq | hq
            · exact List.take_subset _ _ (hm1 q hq)
            · rcases List.mem_cons.mp hq with rfl | hq
              · exact List.get_mem _ _ _
              · exact List.drop_subset _ _ (hm2 q hq)
        · exact ⟨[], by rw [dpAux_succ_stuck e2 f a b m hcond hj]; rfl, by simp⟩

/-- Inductive step of the idempotence proof, in the splitting case: the
second pass re-finds the same split point (first occurrence of the maximum
deviation survives simplification), and the two recursive halves are
unchanged by the inductive hypothesis. -/
lemma dpAux_idem_step (e2 : ℚ) (he2 : 0 ≤ e2) (n : ℕ)
    (ih : ∀ (m : List Point), m.length ≤ n → ∀ (a b : Point) (f₁ f₂ : ℕ),
      m.length ≤ f₁ → (dpAux e2 f₁ a b m).tail.dropLast.length ≤ f₂ →
      dpAux e2 f₂ a b ((dpAux e2 f₁ a b m).tail.dropLast) = dpAux e2 f₁ a b m)
    (m : List Point) (hm : m.length ≤ n + 1) (a b : Point) (g f₂ : ℕ)
    (h₁ : m.length ≤ g + 1)
    (h₂ : (dpAux e2 (g + 1) a b m).tail.dropLast.length ≤ f₂)
    (hcond : ¬ ∀ d ∈ m.map (devNum a b), d ≤ devThreshold a b e2) :
    dpAux e2 f₂ a b ((dpAux e2 (g + 1) a b m).tail.dropLast)
      = dpAux e2 (g + 1) a b m := by
  -- the maximum deviation and the split position
  have hex : ∃ d ∈ m.map (devNum a b), devThreshold a b e2 < d := by
    push_neg at hcond
    obtain ⟨d, hd, hd'⟩ := hcond
    exact ⟨d, hd, hd'⟩
  obtain ⟨d0, hd0, hd0gt⟩ := hex
  have hmx_gt : devThreshold a b e2 < (m.map (devNum a b)).foldl max 0 :=
    lt_of_lt_of_le hd0gt (mem_le_foldl_max hd0 0)
  have hmx_pos : 0 < (m.map (devNum a b)).foldl max 0 :=
    lt_of_le_of_lt (devThreshold_nonneg a b he2) hmx_gt
  have hmx_mem : (m.map (devNum a b)).foldl max 0 ∈ m.map (devNum a b) := by
    rcases foldl_max_mem (l := m.map (devNum a b)) 0 with h | h
    · rw [h] at hmx_pos
      exact absurd hmx_pos (lt_irrefl 0)
    · exact h
  have hjlt : firstIdxOf ((m.map (devNum a b)).foldl max 0) (m.map (devNum a b))
      < (m.map (devNum a b)).length := firstIdxOf_lt_length hmx_mem
  have hj : firstIdxOf ((m.map (devNum a b)).foldl max 0) (m.map (devNum a b))
      < m.length := by simpa using hjlt
  -- abbreviations
  set mx := (m.map (devNum a b)).foldl max 0 with hmxdef
  set j := firstIdxOf mx (m.map (devNum a b)) with hjdef
  set p := m.get ⟨j, hj⟩ with hpdef
  -- the split point attains the maximum
  have hdevp : devNum a b p = mx := by
    have hg := get_firstIdxOf hmx_mem hjlt
    rw [hpdef, ← hg]
    simp [List.get_eq_getElem]
  -- all interior points are ≤ mx, points before the split are < mx
  have hall : ∀ q ∈ m, devNum a b q ≤ mx :=
    fun q hq => mem_le_foldl_max (List.mem_map_of_mem _ hq) 0
  have hbefore : ∀ q ∈ m.take j, devNum a b q < mx := by
    intro q hq
    have hle : devNum a b q ≤ mx := hall q (List.take_subset _ _ hq)
    refine lt_of_le_of_ne hle (fun he => ?_)
    apply not_mem_take_firstIdxOf mx (m.map (devNum a b))
    rw [← hjdef, ← List.map_take]
    exact he ▸ List.mem_map_of_mem _ hq
  -- shapes of the two recursive halves
  obtain ⟨I1, h1, hm1⟩ := dpAux_shape e2 g a p (m.take j)
  obtain ⟨I2, h2, hm2⟩ := dpAux_shape e2 g p b (m.drop (j + 1))
  have hsplit := dpAux_succ_split e2 g a b m j hcond hjdef hj
  rw [← hpdef] at hsplit
  -- the interior of the first pass
  have hintr : (dpAux e2 (g + 1) a b m).tail.dropLast = I1 ++ p :: I2 := by
    rw [hsplit, h1, h2]
    simp only [List.tail_cons, List.cons_append]
    rw [show (I1 ++ [p]) ++ (I2 ++ [b]) = (I1 ++ p :: I2) ++ [b] by simp]
    rw [List.dropLast_concat]
  rw [hintr]
  rw [hsplit, h1, h2]
  -- facts about the second pass over the interior I1 ++ p :: I2
  have hpI : p ∈ I1 ++ p :: I2 := List.mem_append_right _ (List.mem_cons_self _ _)
  have hIsub : ∀ q ∈ I1 ++ p :: I2, q ∈ m := by
    intro q hq
    rcases List.mem_append.mp hq with hq | hq
    · exact List.take_subset _ _ (hm1 q hq)
    · rcases List.mem_cons.mp hq with rfl | hq
      · rw [hpdef]
        exact List.get_mem _ _ _
      · exact List.drop_subset _ _ (hm2 q hq)
  have hcond' : ¬ ∀ d ∈ (I1 ++ p :: I2).map (devNum a b), d ≤ devThreshold a b e2 := by
    intro hforall
    have := hforall (devNum a b p) (List.mem_map_of_mem _ hpI)
    rw [hdevp] at this
    exact absurd this (not_le_of_lt hmx_gt)
  have hmx' : ((I1 ++ p :: I2).map (devNum a b)).foldl max 0 = mx := by
    apply le_antisymm
    · refine foldl_max_le (le_of_lt hmx_pos) ?_
      intro x hx
      obtain ⟨q, hq, rfl⟩ := List.mem_map.mp hx
      exact hall q (hIsub q hq)
    · have := mem_le_foldl_max (List.mem_map_of_mem (devNum a b) hpI) 0
      rw [hdevp] at this
      exact this
  have hnotbefore : mx ∉ I1.map (devNum a b) := by
    intro hmem
    obtain ⟨q, hq, hqe⟩ := List.mem_map.mp hmem
    have : devNum a b q < mx := hbefore q (hm1 q hq)
    rw [hqe] at this
    exact lt_irrefl mx this
  have hj' : firstIdxOf mx ((I1 ++ p :: I2).map (devNum a b)) = I1.length := by
    rw [List.map_append, List.map_cons, hdevp]
    rw [firstIdxOf_append_cons hnotbefore]
    simp
  have hj'lt : I1.length < (I1 ++ p :: I2).length := by
    simp
  have hsplit' := dpAux_succ_split e2 (f₂ - 1) a b (I1 ++ p :: I2) I1.length hcond'
    (by rw [hmx', hj']) hj'lt
  have hf₂ : f₂ - 1 + 1 = f₂ := by
    have : 0 < f₂ := by
      have := h₂
      rw [hintr] at this
      simp at this
      omega
    omega
  rw [hf₂] at hsplit'
  rw [hsplit']
  -- identify the split data of the second pass
  have hget' : (I1 ++ p :: I2).get ⟨I1.length, hj'lt⟩ = p := get_append_cons I1 p I2 hj'lt
  have htake' : (I1 ++ p :: I2).take I1.length = I1 := List.take_left I1 (p :: I2)
  have hdrop' : (I1 ++ p :: I2).drop (I1.length + 1) = I2 :=
    drop_length_append_cons I1 p I2
  rw [hget', htake', hdrop']
  -- lengths for the inductive hypotheses
  have hlen_take : (m.take j).length = j := by
    rw [List.length_take]
    omega
  have hlen_drop : (m.drop (j + 1)).length = m.length - (j + 1) := List.length_drop _ _
  have hintrlen : (I1 ++ p :: I2).length ≤ f₂ := by
    have := h₂
    rw [hintr] at this
    exact this
  -- left half unchanged
  have hL := ih (m.take j) (by omega) a p g (f₂ - 1)
    (by omega)
    (by rw [h1, interior_shape]
        simp only [List.length_append, List.length_cons] at hintrlen
        omega)
  rw [h1, interior_shape] at hL
  -- right half unchanged
  have hR := ih (m.drop (j + 1)) (by omega) p b g (f₂ - 1)
    (by omega)
    (by rw [h2, interior_shape]
        simp only [List.length_append, List.length_cons] at hintrlen
        omega)
  rw [h2, interior_shape] at hR
  rw [hL, hR]

/-- Idempotence of the Douglas-Peucker core: re-running `dpAux` on the
interior of its own output (with any sufficient fuel) reproduces the
output. -/
lemma dpAux_idem (e2 : ℚ) (he2 : 0 ≤ e2) :
    ∀ (n : ℕ) (m : List Point), m.length ≤ n → ∀ (a b : Point) (f₁ f₂ : ℕ),
      m.length ≤ f₁ → (dpAux e2 f₁ a b m).tail.dropLast.length ≤ f₂ →
      dpAux e2 f₂ a b ((dpAux e2 f₁ a b m).tail.dropLast) = dpAux e2 f₁ a b m := by
  intro n
  induction n with
  | zero =>
      intro m hm a b f₁ f₂ h₁ h₂
      have hnil : m = [] := List.length_eq_zero.mp (Nat.le_zero.mp hm)
      subst hnil
      rw [dpAux_nil]
      simp only [List.tail_cons, List.dropLast_single]
      exact dpAux_nil e2 f₂ a b
  | succ n ih =>
      intro m hm a b f₁ f₂ h₁ h₂
      by_cases hcond : ∀ d ∈ m.map (devNum a b), d ≤ devThreshold a b e2
      · rcases Nat.eq_zero_or_pos f₁ with hf | hf
        · subst hf
          have hnil : m = [] := List.length_eq_zero.mp (Nat.le_zero.mp h₁)
          subst hnil
          rw [dpAux_nil]
          simp only [List.tail_cons, List.dropLast_single]
          exact dpAux_nil e2 f₂ a b
        · obtain ⟨g, rfl⟩ : ∃ g, f₁ = g + 1 := ⟨f₁ - 1, by omega⟩
          rw [dpAux_succ_of_all e2 g a b m hcond]
          simp only [List.tail_cons, List.dropLast_single]
          exact dpAux_nil e2 f₂ a b
      · have hne : m ≠ [] := by
          intro hnil
          subst hnil
          exact hcond (by simp)
        have hpos : 0 < m.length := List.length_pos.mpr hne
        obtain ⟨g, rfl⟩ : ∃ g, f₁ = g + 1 := ⟨f₁ - 1, by omega⟩
        exact dpAux_idem_step e2 he2 n ih m hm a b g f₂ h₁ h₂ hcond

lemma simplify_eq_dpAux (e : ℚ) (a : Point) (rs : List Point) (hrs : rs ≠ []) :
    simplify_coordinator e (a :: rs)
      = dpAux (e * e) rs.length a (rs.getLast hrs) rs.dropLast := by
  match rs with
  | r :: rest => rfl

/-- **C9.** Modelled from the spec (`simplify_coordinator` is not in the
repository snapshot): Douglas-Peucker simplification is idempotent —
re-simplifying an already-simplified sequence with the same tolerance
returns it unchanged, for every point sequence and every tolerance.
(Determinism is definitional: the model is a pure function of the sequence
and the tolerance.) -/
theorem simplify_coordinator_idempotent (e : ℚ) (l : List Point) :
    simplify_coordinator e (simplify_coordinator e l) = simplify_coordinator e l := by
  match l with
  | [] => rfl
  | [a] => rfl
  | a :: r :: rest =>
      have he2 : 0 ≤ e * e := mul_self_nonneg e
      have hrs : (r :: rest : List Point) ≠ [] := by simp
      rw [simplify_eq_dpAux e a (r :: rest) hrs]
      obtain ⟨I, hI, -⟩ := dpAux_shape (e * e) (r :: rest).length a
        ((r :: rest).getLast hrs) ((r :: rest).dropLast)
      rw [hI]
      rw [simplify_eq_dpAux e a (I ++ [(r :: rest).getLast hrs]) (by simp)]
      have hgl : (I ++ [(r :: rest).getLast hrs]).getLast (by simp)
          = (r :: rest).getLast hrs := List.getLast_append _
      have hdl : (I ++ [(r :: rest).getLast hrs]).dropLast = I := by simp
      have hlen : (I ++ [(r :: rest).getLast hrs]).length = I.length + 1 := by simp
      rw [hgl, hdl, hlen]
      have hidem := dpAux_idem (e * e) he2 ((r :: rest).dropLast.length)
        ((r :: rest).dropLast) le_rfl a ((r :: rest).getLast hrs)
        ((r :: rest).length) (I.length + 1)
        (by simp)
        (by rw [hI, interior_shape]; omega)
      rw [hI, interior_shape] at hidem
      rw [hidem]

/-! ## MinHash + LSH (source: `main`, lines 177–210)

Modelled from the spec: `LSHClusteringLib` (`trajclus.lib.lsh_lib`) is
imported by the app but its source is not in the repository snapshot.
Per §4.4, `signature(token_set)` is, for each of `num_perm` hash
permutations, the minimum hashed value over the token set — "purely a
function of the set's contents"; `insert` registers the record under each
band's hash (rows grouped per band); `query` returns every inserted record
sharing at least one band-hash with the query record, the record itself
included, deterministically. The permutation family is the explicit
parameter `h` below (fixed seeds make it a constant of the run). The bucket
and cluster stages (`'_'.join(x)`, `convert_to_cluster_number`) are
translated from the source. -/

/-- Modelled from the spec: the MinHash signature of a record's token list —
entry `i` is the minimum of hash permutation `h i` over the distinct
tokens (a function of the set of tokens only). -/
def lshSignature (h : ℕ → String → ℕ) (numPerm : ℕ) (tokens : List String) :
    List (WithTop ℕ) :=
  (List.range numPerm).map (fun i => (tokens.toFinset.image (h i)).min)

/-- Split a signature into bands of `r` rows each (structural fuel, always
called with fuel = signature length). -/
def chunksOf (r : ℕ) : ℕ → List (WithTop ℕ) → List (List (WithTop ℕ))
  | 0, _ => []
  | _, [] => []
  | fuel + 1, x :: xs => ((x :: xs).take r) :: chunksOf r fuel ((x :: xs).drop r)

/-- The bands of a signature. -/
def bandsOf (r : ℕ) (s : List (WithTop ℕ)) : List (List (WithTop ℕ)) :=
  chunksOf r s.length s

/-- Two signatures collide in the LSH index iff they agree on at least one
band. -/
def sharesBand (r : ℕ) (s t : List (WithTop ℕ)) : Prop :=
  ∃ c ∈ bandsOf r s, c ∈ bandsOf r t

instance sharesBandDec (r : ℕ) (s t : List (WithTop ℕ)) :
    Decidable (sharesBand r s t) := List.decidableBEx _ _

/-- Modelled from the spec: `query_duplicated_record` — the ids of every
pool record whose signature shares at least one band with the given
record's signature, in pool (insertion) order. -/
def lshQuery (h : ℕ → String → ℕ) (numPerm r : ℕ)
    (pool : List (String × List String)) (rec : String × List String) :
    List String :=
  (pool.filter (fun q => decide (sharesBand r (lshSignature h numPerm q.2)
    (lshSignature h numPerm rec.2)))).map Prod.fst

/-- The record's bucket key:
`flight_df['duplicated'].apply(lambda x: '_'.join(x))`. -/
def bucketOf (h : ℕ → String → ℕ) (numPerm r : ℕ)
    (pool : List (String × List String)) (rec : String × List String) :
    String :=
  String.intercalate "_" (lshQuery h numPerm r pool rec)

/-- The `flight_df['buckets']` column: one bucket key per record. -/
def pipelineBuckets (h : ℕ → String → ℕ) (numPerm r : ℕ)
    (pool : List (String × List String)) : List String :=
  pool.map (bucketOf h numPerm r pool)

/-- The cluster id of one record, via `convert_to_cluster_number` over the
bucket column. -/
def clusterOf (h : ℕ → String → ℕ) (numPerm r : ℕ)
    (pool : List (String × List String)) (rec : String × List String) : Int :=
  convert_to_cluster_number (pipelineBuckets h numPerm r pool)
    (bucketOf h numPerm r pool rec)

lemma lshSignature_eq_of_toFinset_eq (h : ℕ → String → ℕ) (numPerm : ℕ)
    {t₁ t₂ : List String} (hset : t₁.toFinset = t₂.toFinset) :
    lshSignature h numPerm t₁ = lshSignature h numPerm t₂ := by
  simp [lshSignature, hset]

lemma sharesBand_self (r : ℕ) {s : List (WithTop ℕ)} (hs : s ≠ []) :
    sharesBand r s s := by
  match s with
  | x :: xs =>
      refine ⟨(x :: xs).take r, ?_, ?_⟩ <;>
        · show _ ∈ bandsOf r (x :: xs)
          rw [bandsOf, List.length_cons, chunksOf]
          exact List.mem_cons_self _ _

lemma lshQuery_eq_of_sig_eq (h : ℕ → String → ℕ) (numPerm r : ℕ)
    (pool : List (String × List String)) {rec₁ rec₂ : String × List String}
    (hsig : lshSignature h numPerm rec₁.2 = lshSignature h numPerm rec₂.2) :
    lshQuery h numPerm r pool rec₁ = lshQuery h numPerm r pool rec₂ := by
  unfold lshQuery
  congr 1
  apply List.filter_congr
  intro q hq
  rw [hsig]

lemma bucketOf_eq_of_toFinset_eq (h : ℕ → String → ℕ) (numPerm r : ℕ)
    (pool : List (String × List String)) {rec₁ rec₂ : String × List String}
    (hset : rec₁.2.toFinset = rec₂.2.toFinset) :
    bucketOf h numPerm r pool rec₁ = bucketOf h numPerm r pool rec₂ := by
  unfold bucketOf
  rw [lshQuery_eq_of_sig_eq h numPerm r pool
    (lshSignature_eq_of_toFinset_eq h numPerm hset)]

/-- **C4.** Any two records with identical token sets receive identical
MinHash signatures, each one's candidate query contains the other (no false
negative at Jaccard similarity 1.0), and they receive the same bucket key;
moreover, whenever at least six records of the pool carry one common token
set, all of them receive one common cluster id different from `-1`
(their shared bucket's population exceeds the minimum of 5). -/
theorem identical_token_sets_collide (h : ℕ → String → ℕ) (numPerm r : ℕ)
    (hnp : 0 < numPerm) (pool : List (String × List String))
    (rec₁ rec₂ : String × List String)
    (h₁ : rec₁ ∈ pool) (h₂ : rec₂ ∈ pool)
    (hset : rec₁.2.toFinset = rec₂.2.toFinset) :
    lshSignature h numPerm rec₁.2 = lshSignature h numPerm rec₂.2 ∧
    rec₂.1 ∈ lshQuery h numPerm r pool rec₁ ∧
    rec₁.1 ∈ lshQuery h numPerm r pool rec₂ ∧
    bucketOf h numPerm r pool rec₁ = bucketOf h numPerm r pool rec₂ ∧
    (∀ S : Finset String,
      6 ≤ (pool.filter (fun q => decide (q.2.toFinset = S))).length →
      ∀ q₁ ∈ pool, ∀ q₂ ∈ pool, q₁.2.toFinset = S → q₂.2.toFinset = S →
        clusterOf h numPerm r pool q₁ = clusterOf h numPerm r pool q₂ ∧
        clusterOf h numPerm r pool q₁ ≠ -1) := by
  have hsig := lshSignature_eq_of_toFinset_eq h numPerm hset
  have hsig_ne : ∀ t : List String, lshSignature h numPerm t ≠ [] := by
    intro t hnil
    have : (lshSignature h numPerm t).length = numPerm := by
      simp [lshSignature]
    rw [hnil] at this
    simp at this
    omega
  have hmemq : ∀ ra rb : String × List String, rb ∈ pool →
      lshSignature h numPerm ra.2 = lshSignature h numPerm rb.2 →
      rb.1 ∈ lshQuery h numPerm r pool ra := by
    intro ra rb hrb hsig'
    refine List.mem_map.mpr ⟨rb, List.mem_filter.mpr ⟨hrb, ?_⟩, rfl⟩
    rw [decide_eq_true_eq, hsig']
    exact sharesBand_self r (hsig_ne rb.2)
  refine ⟨hsig, hmemq rec₁ rec₂ h₂ hsig, hmemq rec₂ rec₁ h₁ hsig.symm,
    bucketOf_eq_of_toFinset_eq h numPerm r pool hset, ?_⟩
  intro S hS q₁ hq₁ q₂ hq₂ hS₁ hS₂
  have hbeq : ∀ qa qb : String × List String, qa.2.toFinset = S →
      qb.2.toFinset = S →
      bucketOf h numPerm r pool qa = bucketOf h numPerm r pool qb := by
    intro qa qb ha hb
    exact bucketOf_eq_of_toFinset_eq h numPerm r pool (ha.trans hb.symm)
  have hcluster_eq : clusterOf h numPerm r pool q₁ = clusterOf h numPerm r pool q₂ := by
    unfold clusterOf
    rw [hbeq q₁ q₂ hS₁ hS₂]
  refine ⟨hcluster_eq, ?_⟩
  -- the shared bucket's population is at least 6
  have hpop : 6 ≤ bucketPopulation (pipelineBuckets h numPerm r pool)
      (bucketOf h numPerm r pool q₁) := by
    unfold bucketPopulation pipelineBuckets
    rw [List.count, List.countP_map]
    have hmono : (pool.filter (fun q => decide (q.2.toFinset = S))).length
        ≤ pool.countP
          ((fun x => x == bucketOf h numPerm r pool q₁) ∘ bucketOf h numPerm r pool) := by
      rw [← List.countP_eq_length_filter]
      refine List.countP_mono_left ?_
      intro q hq hqS
      have hqS' : q.2.toFinset = S := of_decide_eq_true hqS
      simp only [Function.comp_apply, beq_iff_eq]
      exact hbeq q q₁ hqS' hS₁
    omega
  unfold clusterOf convert_to_cluster_number
  rw [if_neg (by omega)]
  intro hc
  omega

/-- Six flights sharing the token set `{"G1", "G2", "G3"}` (one with the
tokens in a different order). -/
def c4Pool : List (String × List String) :=
  [("f1", ["G1", "G2", "G3"]), ("f2", ["G1", "G2", "G3"]),
   ("f3", ["G1", "G2", "G3"]), ("f4", ["G1", "G2", "G3"]),
   ("f5", ["G1", "G2", "G3"]), ("f6", ["G3", "G2", "G1"])]

/-- Witness for `identical_token_sets_collide`: the end-to-end six-flight
scenario of §8 — six records with the common token set
`{"G1", "G2", "G3"}` (two of them with the tokens in a different order). -/
theorem identical_token_sets_collide_witness :
    clusterOf (fun i t => t.length + i) 4 2 c4Pool ("f1", ["G1", "G2", "G3"])
      = clusterOf (fun i t => t.length + i) 4 2 c4Pool ("f6", ["G3", "G2", "G1"]) ∧
    clusterOf (fun i t => t.length + i) 4 2 c4Pool ("f1", ["G1", "G2", "G3"]) ≠ -1 :=
  (identical_token_sets_collide (fun i t => t.length + i) 4 2 (by decide) c4Pool
      ("f1", ["G1", "G2", "G3"]) ("f6", ["G3", "G2", "G1"])
      (by decide) (by decide) (by decide)).2.2.2.2
    (["G1", "G2", "G3"] : List String).toFinset (by decide)
    ("f1", ["G1", "G2", "G3"]) (by decide)
    ("f6", ["G3", "G2", "G1"]) (by decide) (by decide) (by decide)

/-! ## Silhouette evaluation (source: `compute_silhouette_score`, lines 71–77)

`compute_silhouette_score` delegates to
`sklearn.metrics.silhouette_score(X=feature_matrix, labels=labels,
metric='precomputed')`, modelled here from sklearn's documented contract:
it raises `ValueError` unless `2 <= n_labels <= n_samples - 1`, where
`n_labels` counts the **distinct label values including `-1`** (sklearn's
silhouette gives the noise label no special treatment); otherwise it
returns the mean over all samples of the per-sample silhouette coefficient
`(b - a) / max(a, b)` (0 for singleton clusters, and 0 where
`max(a, b) = 0`), with `a` the own-cluster distance sum divided by
(cluster size − 1) and `b` the smallest mean distance to another cluster. -/

/-- Minimum of a list with a default for the empty list. -/
def listMinD (l : List ℚ) (dflt : ℚ) : ℚ :=
  match l with
  | [] => dflt
  | x :: xs => xs.foldl min x

/-- Number of records carrying label `c`. -/
def clusterSize (labels : List ℤ) (c : ℤ) : ℕ := labels.count c

/-- Sum of distances from sample `i` to every sample labelled `c`. -/
def sumDistTo (n : ℕ) (D : ℕ → ℕ → ℚ) (labels : List ℤ) (i : ℕ) (c : ℤ) : ℚ :=
  ((List.range n).map (fun j => if labels.getD j 0 = c then D i j else 0)).sum

/-- Mean own-cluster distance of sample `i` (sum over the own cluster,
including the zero self-distance, divided by cluster size − 1). -/
def intraA (n : ℕ) (D : ℕ → ℕ → ℚ) (labels : List ℤ) (i : ℕ) : ℚ :=
  sumDistTo n D labels i (labels.getD i 0)
    / ((clusterSize labels (labels.getD i 0) : ℚ) - 1)

/-- Smallest mean distance from sample `i` to any other cluster. -/
def interB (n : ℕ) (D : ℕ → ℕ → ℚ) (labels : List ℤ) (i : ℕ) : ℚ :=
  listMinD ((labels.dedup.filter (fun x => x ≠ labels.getD i 0)).map
    (fun c2 => sumDistTo n D labels i c2 / (clusterSize labels c2 : ℚ))) 0

/-- `(b - a) / max(a, b)`, with sklearn's `nan_to_num` convention `0` when
`max(a, b) = 0`. -/
def silRatio (a b : ℚ) : ℚ :=
  if max a b = 0 then 0 else (b - a) / max a b

/-- The silhouette coefficient of one sample (0 for singleton clusters). -/
def sampleSil (n : ℕ) (D : ℕ → ℕ → ℚ) (labels : List ℤ) (i : ℕ) : ℚ :=
  if clusterSize labels (labels.getD i 0) = 1 then 0
  else silRatio (intraA n D labels i) (interB n D labels i)

/-- Mean silhouette coefficient over all samples. -/
def silhouetteMean (n : ℕ) (D : ℕ → ℕ → ℚ) (labels : List ℤ) : ℚ :=
  ((List.range n).map (sampleSil n D labels)).sum / n

/-- Model of `sklearn.metrics.silhouette_score(metric='precomputed')`:
validation then the mean coefficient. -/
def silhouette_score (n : ℕ) (D : ℕ → ℕ → ℚ) (labels : List ℤ) :
    Except String ℚ :=
  if 2 ≤ labels.dedup.length ∧ labels.dedup.length ≤ n - 1 then
    Except.ok (silhouetteMean n D labels)
  else
    Except.error "ValueError: Number of labels is invalid"

/-- `compute_silhouette_score(feature_matrix, labels)` from the source:
a direct delegation to sklearn `silhouette_score` with a precomputed
distance matrix. -/
def compute_silhouette_score (n : ℕ) (D : ℕ → ℕ → ℚ) (labels : List ℤ) :
    Except String ℚ :=
  silhouette_score n D labels

lemma foldl_min_self (x : ℚ) (k : ℕ) : (List.replicate k x).foldl min x = x := by
  induction k with
  | zero => rfl
  | succ k ih => simpa [List.replicate, min_self] using ih

lemma listMinD_replicate_zero (k : ℕ) :
    listMinD (List.replicate k (0 : ℚ)) 0 = 0 := by
  cases k with
  | zero => rfl
  | succ k => simpa [listMinD, List.replicate] using foldl_min_self 0 k

/-- The labeling of the counterexample: noise plus one real cluster. -/
def silLabels : List ℤ := [-1, -1, 0, 0, 0, 0]

/-- The (degenerate but valid) all-zero distance matrix. -/
def silDzero : ℕ → ℕ → ℚ := fun _ _ => 0

/-- **C5, counterexample.** With two noise records and a single real
cluster there are fewer than two distinct non-noise labels, yet the code
returns a score (`0`) instead of failing: sklearn counts `-1` as an
ordinary label, so `n_labels = 2` passes its validation. -/
theorem silhouette_noise_counterexample :
    ((silLabels.filter (fun c => c ≠ -1)).dedup.length < 2) ∧
    compute_silhouette_score 6 silDzero silLabels = Except.ok 0 := by
  constructor
  · decide
  · show silhouette_score 6 silDzero silLabels = Except.ok 0
    rw [silhouette_score, if_pos (by decide)]
    have hmean : silhouetteMean 6 silDzero silLabels = 0 := by
      have hsil : ∀ i : ℕ, sampleSil 6 silDzero silLabels i = 0 := by
        intro i
        rw [sampleSil]
        by_cases h1 : clusterSize silLabels (silLabels.getD i 0) = 1
        · rw [if_pos h1]
        · rw [if_neg h1]
          have hsum : ∀ c : ℤ, sumDistTo 6 silDzero silLabels i c = 0 := by
            intro c
            rw [sumDistTo]
            simp [silDzero]
          have ha : intraA 6 silDzero silLabels i = 0 := by
            rw [intraA, hsum, zero_div]
          have hb : interB 6 silDzero silLabels i = 0 := by
            rw [interB]
            simp only [hsum, zero_div]
            simp [listMinD_replicate_zero]
          rw [ha, hb]
          simp [silRatio]
      rw [silhouetteMean]
      have hz : ((List.range 6).map (sampleSil 6 silDzero silLabels)).sum = 0 := by
        apply List.sum_eq_zero
        intro x hx
        obtain ⟨i, -, rfl⟩ := List.mem_map.mp hx
        exact hsil i
      rw [hz, zero_div]
    rw [hmean]

lemma le_foldl_min {l : List ℚ} {c init : ℚ} (h0 : c ≤ init)
    (h : ∀ x ∈ l, c ≤ x) : c ≤ l.foldl min init := by
  induction l generalizing init with
  | nil => exact h0
  | cons a t ih =>
      exact ih (le_min h0 (h a (List.mem_cons_self _ _)))
        (fun x hx => h x (List.mem_cons_of_mem _ hx))

lemma listMinD_nonneg {l : List ℚ} (h : ∀ x ∈ l, 0 ≤ x) : 0 ≤ listMinD l 0 := by
  match l with
  | [] => exact le_refl 0
  | x :: xs =>
      exact le_foldl_min (h x (List.mem_cons_self _ _))
        (fun y hy => h y (List.mem_cons_of_mem _ hy))

lemma sumDistTo_nonneg {n : ℕ} {D : ℕ → ℕ → ℚ} (hD : ∀ i j, 0 ≤ D i j)
    (labels : List ℤ) (i : ℕ) (c : ℤ) : 0 ≤ sumDistTo n D labels i c := by
  apply List.sum_nonneg
  intro x hx
  obtain ⟨j, -, rfl⟩ := List.mem_map.mp hx
  split
  · exact hD i j
  · exact le_refl 0

lemma silRatio_bounds {a b : ℚ} (ha : 0 ≤ a) (hb : 0 ≤ b) :
    -1 ≤ silRatio a b ∧ silRatio a b ≤ 1 := by
  unfold silRatio
  split
  · norm_num
  · rename_i h
    have hmax : 0 < max a b :=
      lt_of_le_of_ne (le_trans ha (le_max_left a b)) (Ne.symm h)
    constructor
    · rw [le_div_iff hmax]
      have := le_max_left a b
      linarith
    · rw [div_le_one hmax]
      have := le_max_right a b
      linarith

lemma sampleSil_bounds {n : ℕ} {D : ℕ → ℕ → ℚ} (hD : ∀ i j, 0 ≤ D i j)
    (labels : List ℤ) (i : ℕ) (hi : i < labels.length) :
    -1 ≤ sampleSil n D labels i ∧ sampleSil n D labels i ≤ 1 := by
  rw [sampleSil]
  split
  · norm_num
  · apply silRatio_bounds
    · apply div_nonneg (sumDistTo_nonneg hD labels i _)
      have hmem : labels.getD i 0 ∈ labels := by
        rw [List.getD_eq_getElem?_getD, List.getElem?_eq_getElem hi,
          Option.getD_some]
        exact List.get_mem labels i hi
      have hcount : 0 < clusterSize labels (labels.getD i 0) :=
        List.count_pos_iff.mpr hmem
      have : (1 : ℚ) ≤ (clusterSize labels (labels.getD i 0) : ℚ) := by
        exact_mod_cast hcount
      linarith
    · apply listMinD_nonneg
      intro x hx
      obtain ⟨c2, -, rfl⟩ := List.mem_map.mp hx
      exact div_nonneg (sumDistTo_nonneg hD labels i c2) (Nat.cast_nonneg _)

lemma sum_bounds_of_mem {l : List ℚ} (h : ∀ x ∈ l, -1 ≤ x ∧ x ≤ 1) :
    -(l.length : ℚ) ≤ l.sum ∧ l.sum ≤ l.length := by
  induction l with
  | nil => simp
  | cons a t ih =>
      have ha := h a (List.mem_cons_self _ _)
      have ht := ih (fun x hx => h x (List.mem_cons_of_mem _ hx))
      simp only [List.sum_cons, List.length_cons, Nat.cast_add, Nat.cast_one]
      constructor
      · have := ht.1
        linarith [ha.1]
      · have := ht.2
        linarith [ha.2]

/-- **C5, amended.** `compute_silhouette_score` counts the noise label `-1`
as an ordinary cluster label (sklearn gives it no special treatment): it
fails iff the number of distinct labels *including `-1`* lies outside
`[2, n_samples − 1]`, and within that range it returns a score in
`[-1, 1]` for every valid (entrywise non-negative) distance matrix — in
particular a labeling with a single non-noise cluster plus noise records
yields a score rather than a failure. -/
theorem silhouette_amended (n : ℕ) (D : ℕ → ℕ → ℚ) (labels : List ℤ)
    (hlen : labels.length = n) (hD : ∀ i j, 0 ≤ D i j) :
    (¬ (2 ≤ labels.dedup.length ∧ labels.dedup.length ≤ n - 1) →
      ∃ msg, compute_silhouette_score n D labels = Except.error msg) ∧
    (2 ≤ labels.dedup.length → labels.dedup.length ≤ n - 1 →
      ∃ s : ℚ, compute_silhouette_score n D labels = Except.ok s ∧
        -1 ≤ s ∧ s ≤ 1) := by
  constructor
  · intro h
    exact ⟨"ValueError: Number of labels is invalid",
      by rw [compute_silhouette_score, silhouette_score, if_neg h]⟩
  · intro h2 hn
    refine ⟨silhouetteMean n D labels, ?_, ?_, ?_⟩
    · rw [compute_silhouette_score, silhouette_score, if_pos ⟨h2, hn⟩]
    all_goals
      have hn3 : 3 ≤ n := by omega
      have hnpos : (0 : ℚ) < (n : ℚ) := by
        exact_mod_cast (by omega : 0 < n)
      have hbounds : ∀ x ∈ (List.range n).map (sampleSil n D labels),
          -1 ≤ x ∧ x ≤ 1 := by
        intro x hx
        obtain ⟨i, hi, rfl⟩ := List.mem_map.mp hx
        exact sampleSil_bounds hD labels i
          (by rw [hlen]; exact List.mem_range.mp hi)
      have hsum := sum_bounds_of_mem hbounds
      rw [List.length_map, List.length_range] at hsum
      rw [silhouetteMean]
    · rw [le_div_iff hnpos]
      linarith [hsum.1]
    · rw [div_le_one hnpos]
      exact hsum.2

/-- Witness for `silhouette_amended`: on `silLabels` (noise plus one
cluster, six samples, all-zero matrix) a score in `[-1, 1]` is returned. -/
theorem silhouette_amended_witness :
    ∃ s : ℚ, compute_silhouette_score 6 silDzero silLabels = Except.ok s ∧
      -1 ≤ s ∧ s ≤ 1 :=
  (silhouette_amended 6 silDzero silLabels (by decide)
      (fun i j => le_refl 0)).2 (by decide) (by decide)

/-! ## The full pipeline (C6): composition of the embedded stages

`main` with the `'k-means'` corridor detector: pool the simplified entrance
trajectories, fit KMeans (`random_state=0`, modelled as the deterministic
`KMeans_fit`), tokenize every raw entrance trajectory, hash and query the
LSH index (permutation family `h`, fixed by the seed), join candidate sets
into bucket keys and convert them to cluster ids. All sources of
randomness in the source are seeded (`random_state=0` for KMeans, the fixed
MinHash permutation seeds), so they enter the model as explicit
parameters. -/

/-- `classifier.predict` for the fitted KMeans model on one point. -/
def kmeansPredict (model : KMeansModel) (p : Point) : ℤ :=
  (nearestIdx model.cluster_centers p : ℤ)

/-- The cluster-assignment pipeline of `main` as one function of the input
table and of the seeded-random parameters. -/
def runPipeline (h : ℕ → String → ℕ) (numPerm r : ℕ)
    (flights : List (String × List EntranceRow)) :
    Except String (List (String × Int)) :=
  let entranceTrajs := flights.map (fun f => sortedEntrancePoints f.2)
  let pooled := (entranceTrajs.map (simplify_coordinator (1 / 10000))).join
  match KMeans_fit pooled 9 with
  | Except.error e => Except.error e
  | Except.ok model =>
      let pool := flights.map
        (fun f => (f.1, tokensFor (kmeansPredict model) f.2))
      Except.ok (pool.map (fun rec => (rec.1, clusterOf h numPerm r pool rec)))

/-- **C6.** The pipeline run twice on identical input and identical
configuration (the same hash-permutation family and the same fixed KMeans
seed, which the model carries as explicit parameters) produces identical
outcomes, and in particular, for every flight id, the same cluster id. The
embedded pipeline is a pure function — every random choice in the source is
behind a fixed seed — so the two runs coincide definitionally. -/
theorem pipeline_deterministic (h : ℕ → String → ℕ) (numPerm r : ℕ)
    (flights : List (String × List EntranceRow)) :
    runPipeline h numPerm r flights = runPipeline h numPerm r flights ∧
    ∀ fid : String,
      (runPipeline h numPerm r flights).map (fun out => out.lookup fid)
        = (runPipeline h numPerm r flights).map (fun out => out.lookup fid) :=
  ⟨rfl, fun _ => rfl⟩

end TrajClus
